import Mathlib

/-!
Verification development for the freud neighbor-accumulation engines:
the PMFT pair-correlation histogram base class (src/cpp/pmft/PMFT.h) and
the Steinhardt bond-orientational order engine (src/cpp/order/Steinhardt.h).

Modelling conventions.  C++ `float` scalars are embedded as exact rationals
(`ℚ`); `std::complex<float>` as pairs `ℚ × ℚ`; arrays (`ManagedArray`,
`std::shared_ptr<float>` buffers) as Lean lists, empty before first
allocation.  The simulation box (an external collaborator) enters the PMFT
computation only through `m_box.getVolume()`, so the state stores that
volume directly.  A value produced by an IEEE division by zero (infinity or
NaN) is represented as `none` in an `Option ℚ`-valued array.  The
thread-parallel accumulation callback is modelled by an explicit list of
(worker index, flat bin index) increments applied to the per-worker
buffers.
-/

/-- State of the `PMFT` base class, mirroring its data members
(src/cpp/pmft/PMFT.h lines 184-194): box (kept as its volume), frame
counter, point and query-point counts, the needs-reduction flag
`m_reduce`, `m_r_max`, the normalized PCF array, the authoritative bin
counts, and the thread-local (per-worker) bin counts. -/
structure PMFT where
  m_box_volume : ℚ
  m_frame_counter : ℕ
  m_n_points : ℕ
  m_n_query_points : ℕ
  m_reduce : Bool
  m_r_max : ℚ
  m_pcf_array : List (Option ℚ)
  m_bin_counts : List ℕ
  m_local_bin_counts : List (List ℕ)
deriving DecidableEq

/-- Embedding of the `PMFT()` constructor (PMFT.h line 38): default box
(volume 0), zero counters, `m_reduce` set to true, `m_r_max` 0.  The
output arrays start unallocated (empty).  The dimensional subclass sizes
the thread-local histogram, so the worker count `W` and flat bin count
`nbins` are shape parameters here. -/
def PMFT.construct (W nbins : ℕ) : PMFT :=
  { m_box_volume := 0
    m_frame_counter := 0
    m_n_points := 0
    m_n_query_points := 0
    m_reduce := true
    m_r_max := 0
    m_pcf_array := []
    m_bin_counts := []
    m_local_bin_counts := List.replicate W (List.replicate nbins 0) }

/-- Embedding of `PMFT::reset` (PMFT.h lines 44-49): zero the per-worker
buffers, zero the frame counter, set the needs-reduction flag.
Modelled from the spec: `ThreadStorage<T>::reset` (ThreadStorage.h, not
under src/) zeroes every worker-local buffer in place, keeping its shape
(spec 4.1: "reset() — zeros all worker buffers"). -/
def PMFT.reset (s : PMFT) : PMFT :=
  { s with
    m_local_bin_counts := s.m_local_bin_counts.map (fun row => row.map (fun _ => 0))
    m_frame_counter := 0
    m_reduce := true }

/-- One bond's effect in the accumulation callback `cf` handed to
`loopOverNeighbors`: the worker increments its own counter at flat bin
`b` (spec 4.3: "increment that bin's worker-local counter by 1").
An out-of-range index leaves the row unchanged (in C++ a bounds
assertion, a programming-contract violation). -/
def PMFT.setAdd1 (row : List ℕ) (b : ℕ) : List ℕ :=
  row.set b (row.getD b 0 + 1)

/-- Application of one (worker, bin) increment to the per-worker buffers. -/
def PMFT.bumpBin (locals : List (List ℕ)) (w b : ℕ) : List (List ℕ) :=
  locals.set w (PMFT.setAdd1 (locals.getD w []) b)

/-- Application of a whole stream of (worker, bin) increments, the model of
the parallel `loopOverNeighbors` pass over all bonds. -/
def PMFT.applyIncs (incs : List (ℕ × ℕ)) (locals : List (List ℕ)) : List (List ℕ) :=
  incs.foldl (fun ls p => PMFT.bumpBin ls p.1 p.2) locals

/-- Embedding of `PMFT::accumulateGeneral` (PMFT.h lines 77-91): record
the box of the neighbor query, run the accumulation callback over all
bonds (the increment stream `incs`), advance the frame counter, record
`n_points` from the neighbor query and the supplied `n_query_points`, and
set the needs-reduction flag. -/
def PMFT.accumulateGeneral (box_volume : ℚ) (n_points n_query_points : ℕ)
    (incs : List (ℕ × ℕ)) (s : PMFT) : PMFT :=
  { s with
    m_box_volume := box_volume
    m_local_bin_counts := PMFT.applyIncs incs s.m_local_bin_counts
    m_frame_counter := s.m_frame_counter + 1
    m_n_points := n_points
    m_n_query_points := n_query_points
    m_reduce := true }

/-- Sum of the per-worker partial counts at a fixed flat key `k`, the
value the reduction loop in `PMFT::reduce3D` accumulates with
`m_bin_counts[i] += (*local_bins)[i]` over all thread-local buffers. -/
def PMFT.workerColSum (locals : List (List ℕ)) (k : ℕ) : ℕ :=
  (locals.map (fun row => row.getD k 0)).sum

/-- Condition under which the normalization of `PMFT::reduce3D` (PMFT.h
lines 140-141) divides by zero: `norm_factor = 1/(m_frame_counter *
m_n_points)` and `inv_num_dens = volume/m_n_query_points`, with no guard
in the source. -/
def PMFT.reduce3DDivZero (s : PMFT) : Bool :=
  s.m_frame_counter * s.m_n_points == 0 || s.m_n_query_points == 0

/-- Embedding of `PMFT::reduce3D` (PMFT.h lines 123-152): fold the
per-worker buffers into the authoritative `m_bin_counts`, then write
`m_pcf_array[i] = m_bin_counts[i] * norm_factor * jf(i) * inv_num_dens`
with `inv_num_dens = volume/m_n_query_points` and `norm_factor =
1/(m_frame_counter * m_n_points)`.
Modelled from the spec: `ManagedArray::prepare` (ManagedArray.h, not
under src/) hands back the requested shape zero-filled, so after the
`+=` loop entry `i` holds exactly the sum of the worker partials at `i`.
When either divisor is zero the IEEE result of the float normalization is
non-finite (infinity or NaN) in every entry; that is the `none` branch.
Otherwise the float expression is embedded as exact rational
arithmetic in the source's operation order. -/
def PMFT.reduce3D (n_r first_dim second_dim : ℕ) (jf : ℕ → ℚ) (s : PMFT) : PMFT :=
  let local_bin_counts_size := n_r * first_dim * second_dim
  let bin := (List.range local_bin_counts_size).map
    (fun i => PMFT.workerColSum s.m_local_bin_counts i)
  let inv_num_dens : ℚ := s.m_box_volume / (s.m_n_query_points : ℚ)
  let norm_factor : ℚ := 1 / ((s.m_frame_counter : ℚ) * (s.m_n_points : ℚ))
  let pcf := (List.range local_bin_counts_size).map (fun i =>
    if PMFT.reduce3DDivZero s then none
    else some (((bin.getD i 0 : ℕ) : ℚ) * norm_factor * jf i * inv_num_dens))
  { s with m_bin_counts := bin, m_pcf_array := pcf }

/-- Embedding of `PMFT::reduce2D` (PMFT.h lines 116-119), which forwards
to `reduce3D` with a first dimension of 1. -/
def PMFT.reduce2D (first_dim second_dim : ℕ) (jf : ℕ → ℚ) (s : PMFT) : PMFT :=
  PMFT.reduce3D 1 first_dim second_dim jf s

/-- Embedding of `PMFT::getPCF` through `PMFT::reduceAndReturn` (PMFT.h
lines 154-176): if `m_reduce` is set, run the reduction (the dimensional
subclass's `reducePCF`, i.e. `reduce3D` with its grid and Jacobian);
then unconditionally clear `m_reduce` and return the PCF array. -/
def PMFT.getPCF (n_r first_dim second_dim : ℕ) (jf : ℕ → ℚ) (s : PMFT) :
    List (Option ℚ) × PMFT :=
  let s1 := if s.m_reduce then PMFT.reduce3D n_r first_dim second_dim jf s else s
  let s2 := { s1 with m_reduce := false }
  (s2.m_pcf_array, s2)

/-- Embedding of `PMFT::getBinCounts` through `PMFT::reduceAndReturn`
(PMFT.h lines 160-176), same protocol as `getPCF` returning the
authoritative bin counts. -/
def PMFT.getBinCounts (n_r first_dim second_dim : ℕ) (jf : ℕ → ℚ) (s : PMFT) :
    List ℕ × PMFT :=
  let s1 := if s.m_reduce then PMFT.reduce3D n_r first_dim second_dim jf s else s
  let s2 := { s1 with m_reduce := false }
  (s2.m_bin_counts, s2)

/-- State of the `Steinhardt` class, mirroring its data members
(src/cpp/order/Steinhardt.h lines 179-198). -/
structure Steinhardt where
  m_Np : ℕ
  m_r_max : ℚ
  m_l : ℕ
  m_r_min : ℚ
  m_average : Bool
  m_Wl : Bool
  m_weighted : Bool
  m_Qlmi : List (ℚ × ℚ)
  m_Qlm : List (ℚ × ℚ)
  m_Qlm_local : List (List (ℚ × ℚ))
  m_Qli : List ℚ
  m_QliAve : List ℚ
  m_QlmiAve : List (ℚ × ℚ)
  m_QlmAve : List (ℚ × ℚ)
  m_norm : ℚ
  m_Wli : List ℚ
deriving DecidableEq

/-- Embedding of the `Steinhardt` constructor (Steinhardt.h lines 68-78):
member initialization (`m_Np` 0, the parameters, `m_Qlm_local` sized
`2l+1` per worker) followed by the three validity checks, each throwing
`std::invalid_argument`; a throwing constructor leaves no usable
instance, so the result is `Except.error` carrying the message. -/
def Steinhardt.construct (W : ℕ) (r_max : ℚ) (l : ℕ) (r_min : ℚ)
    (average Wl weighted : Bool) : Except String Steinhardt :=
  if r_max < 0 ∨ r_min < 0 then
    Except.error "Steinhardt requires r_min and r_max must be positive."
  else if r_min ≥ r_max then
    Except.error "Steinhardt requires r_min must be less than r_max."
  else if l < 2 then
    Except.error "Steinhardt requires l must be two or greater."
  else
    Except.ok
      { m_Np := 0
        m_r_max := r_max
        m_l := l
        m_r_min := r_min
        m_average := average
        m_Wl := Wl
        m_weighted := weighted
        m_Qlmi := []
        m_Qlm := []
        m_Qlm_local := List.replicate W (List.replicate (2 * l + 1) (0, 0))
        m_Qli := []
        m_QliAve := []
        m_QlmiAve := []
        m_QlmAve := []
        m_norm := 0
        m_Wli := [] }

/-- Embedding of `Steinhardt::getOrder` (Steinhardt.h lines 90-104): the
stored array selected by the two flags (`m_Wli` if `m_Wl`, else
`m_QliAve` if `m_average`, else `m_Qli`).  The source method reads the
state and performs no reduction and no mutation, so the state component
of the result is the input state. -/
def Steinhardt.getOrder (s : Steinhardt) : List ℚ × Steinhardt :=
  (if s.m_Wl then s.m_Wli else if s.m_average then s.m_QliAve else s.m_Qli, s)

/-- Embedding of `Steinhardt::getQl` (Steinhardt.h lines 107-117):
`m_QliAve` if `m_average`, else `m_Qli`; no reduction, no mutation. -/
def Steinhardt.getQl (s : Steinhardt) : List ℚ × Steinhardt :=
  (if s.m_average then s.m_QliAve else s.m_Qli, s)

/-- Modelled from the spec: `Steinhardt::reduce` is declared at
Steinhardt.h line 150 but its body lives in Steinhardt.cc, which is not
under src/.  Per spec 4.1, reduce "for every key, sums the corresponding
partial value across all worker buffers into the authoritative output
location": the partials are `m_Qlm_local` and the authoritative array is
`m_Qlm` (Steinhardt.h line 191). -/
def Steinhardt.reduce (s : Steinhardt) : Steinhardt :=
  { s with
    m_Qlm := (List.range (2 * s.m_l + 1)).map (fun m =>
      (s.m_Qlm_local.map (fun buf => buf.getD m ((0 : ℚ), (0 : ℚ)))).sum) }

/-- Output-selection function written from the claim's words (for C5):
it depends only on the two mode flags and the three stored arrays. -/
def Steinhardt.getOrderSpec (wl average : Bool) (wli qliAve qli : List ℚ) : List ℚ :=
  if wl then wli else if average then qliAve else qli

/-- Concrete PMFT state used by witnesses: one worker, a 1x1x2 grid, one
accumulated frame over a box of volume 8 with 2 points, 4 query points,
and one bond in each of the two bins. -/
def pmftWitState : PMFT :=
  PMFT.accumulateGeneral 8 2 4 [(0, 0), (0, 1)] (PMFT.construct 1 2)

/-- Concrete Steinhardt state used by witnesses: third-order mode on,
with distinct stored output arrays. -/
def steinFlagState : Steinhardt :=
  { m_Np := 2
    m_r_max := 2
    m_l := 2
    m_r_min := 0
    m_average := false
    m_Wl := true
    m_weighted := false
    m_Qlmi := []
    m_Qlm := List.replicate 5 (0, 0)
    m_Qlm_local := [List.replicate 5 (0, 0)]
    m_Qli := [3, 3]
    m_QliAve := [4, 4]
    m_QlmiAve := []
    m_QlmAve := []
    m_norm := 0
    m_Wli := [7, 7] }

/-- Concrete Steinhardt state for the C1 counterexample: the single
worker buffer holds a partial value (1, 0) at key m = 0 that has not been
folded into the authoritative `m_Qlm` (still all zero), and the stored
`m_Qli` holds a stale value. -/
def steinPendingState : Steinhardt :=
  { m_Np := 1
    m_r_max := 2
    m_l := 2
    m_r_min := 0
    m_average := false
    m_Wl := false
    m_weighted := false
    m_Qlmi := []
    m_Qlm := List.replicate 5 (0, 0)
    m_Qlm_local := [[(1, 0), (0, 0), (0, 0), (0, 0), (0, 0)]]
    m_Qli := [5]
    m_QliAve := []
    m_QlmiAve := []
    m_QlmAve := []
    m_norm := 0
    m_Wli := [] }

example : PMFT.workerColSum [[1, 2], [3, 4]] 1 = 6 := by decide

example :
    (PMFT.getPCF 1 1 2 (fun _ => 1)
      (PMFT.accumulateGeneral 8 2 4 [(0, 0), (0, 1)] (PMFT.construct 1 2))).1
      = [some 1, some 1] := by
  simp [PMFT.getPCF, PMFT.reduce3D, PMFT.accumulateGeneral, PMFT.construct,
    PMFT.applyIncs, PMFT.bumpBin, PMFT.setAdd1, PMFT.workerColSum,
    PMFT.reduce3DDivZero, List.range_succ]
  norm_num

/-- Helper: indexing a mapped range below its bound evaluates the function. -/
theorem getD_map_range {α : Type} (n k : ℕ) (g : ℕ → α) (d : α) (h : k < n) :
    ((List.range n).map g).getD k d = g k := by
  rw [List.getD_eq_getElem?_getD]
  simp [List.getElem?_map, List.getElem?_range h]

/-- Helper: every entry of a zeroed row reads as zero. -/
theorem getD_map_zero (row : List ℕ) (k : ℕ) :
    (row.map (fun _ => (0 : ℕ))).getD k 0 = 0 := by
  rw [List.getD_eq_getElem?_getD]
  rcases h : (row.map (fun _ => (0 : ℕ)))[k]? with _ | v
  · rfl
  · rw [List.map_const'] at h
    have hv := List.getElem?_mem h
    simp [List.eq_of_mem_replicate hv]

/-- Helper: clearing an already clear needs-reduction flag is the identity. -/
theorem clearReduce_eq (s : PMFT) (h : s.m_reduce = false) :
    { s with m_reduce := false } = s := by
  cases s
  simp_all

/-- Helper: `getPCF` on a clean state (flag already clear) reduces nothing
and returns the stored PCF array with the state unchanged. -/
theorem getPCF_clean (n_r f sd : ℕ) (jf : ℕ → ℚ) (s : PMFT)
    (h : s.m_reduce = false) :
    PMFT.getPCF n_r f sd jf s = (s.m_pcf_array, s) := by
  unfold PMFT.getPCF
  rw [if_neg (by simp [h])]
  show (({ s with m_reduce := false } : PMFT).m_pcf_array, ({ s with m_reduce := false } : PMFT))
      = (s.m_pcf_array, s)
  rw [clearReduce_eq s h]

/-- Helper: `getBinCounts` on a clean state reduces nothing and returns
the stored bin counts with the state unchanged. -/
theorem getBinCounts_clean (n_r f sd : ℕ) (jf : ℕ → ℚ) (s : PMFT)
    (h : s.m_reduce = false) :
    PMFT.getBinCounts n_r f sd jf s = (s.m_bin_counts, s) := by
  unfold PMFT.getBinCounts
  rw [if_neg (by simp [h])]
  show (({ s with m_reduce := false } : PMFT).m_bin_counts, ({ s with m_reduce := false } : PMFT))
      = (s.m_bin_counts, s)
  rw [clearReduce_eq s h]

/-- Helper: reading a mapped list of rows at a row index, when the map
sends the empty row to itself, commutes with the map. -/
theorem getD_map_nil (f : List ℕ → List ℕ) (l : List (List ℕ)) (w : ℕ)
    (hf : f [] = []) :
    (l.map f).getD w [] = f (l.getD w []) := by
  rw [List.getD_eq_getElem?_getD, List.getD_eq_getElem?_getD, List.getElem?_map]
  rcases l[w]? with _ | row
  · simpa using hf.symm
  · rfl

/-- Helper: both accessors always leave the needs-reduction flag clear. -/
theorem accessor_clears_flag (n_r f sd : ℕ) (jf : ℕ → ℚ) (s : PMFT) :
    (PMFT.getPCF n_r f sd jf s).2.m_reduce = false ∧
    (PMFT.getBinCounts n_r f sd jf s).2.m_reduce = false :=
  ⟨rfl, rfl⟩

/-- Claim C4: construction of the Steinhardt engine succeeds exactly for
`0 ≤ r_min < r_max` and `l ≥ 2`, and fails with a configuration error
(leaving no usable instance) exactly when `r_min ≥ r_max`, a radius is
negative, or `l < 2`. -/
theorem c4_construction_validation (W : ℕ) (r_max : ℚ) (l : ℕ) (r_min : ℚ)
    (average Wl weighted : Bool) :
    ((∃ st, Steinhardt.construct W r_max l r_min average Wl weighted = Except.ok st)
        ↔ (0 ≤ r_min ∧ r_min < r_max ∧ 2 ≤ l)) ∧
    ((∃ e, Steinhardt.construct W r_max l r_min average Wl weighted = Except.error e)
        ↔ (r_min ≥ r_max ∨ r_min < 0 ∨ r_max < 0 ∨ l < 2)) := by
  constructor
  · constructor
    · rintro ⟨st, hst⟩
      unfold Steinhardt.construct at hst
      split_ifs at hst with h1 h2 h3
      push_neg at h1 h2 h3
      exact ⟨h1.2, h2, h3⟩
    · rintro ⟨h0, hlt, hl⟩
      unfold Steinhardt.construct
      split_ifs with h1 h2 h3
      · exfalso; rcases h1 with h | h <;> linarith
      · exfalso; linarith
      · exfalso; omega
      · exact ⟨_, rfl⟩
  · constructor
    · rintro ⟨e, he⟩
      unfold Steinhardt.construct at he
      split_ifs at he with h1 h2 h3
      · rcases h1 with h | h
        · exact Or.inr (Or.inr (Or.inl h))
        · exact Or.inr (Or.inl h)
      · exact Or.inl h2
      · exact Or.inr (Or.inr (Or.inr h3))
    · intro h
      unfold Steinhardt.construct
      split_ifs with h1 h2 h3
      · exact ⟨_, rfl⟩
      · exact ⟨_, rfl⟩
      · exact ⟨_, rfl⟩
      · exfalso
        push_neg at h1
        rcases h with h | h | h | h
        · exact h2 h
        · linarith [h1.2]
        · linarith [h1.1]
        · exact h3 h

/-- Claim C5: `getOrder` returns exactly one of the three stored arrays,
selected by the configuration flags alone — `m_Wli` when third-order mode
is on, else `m_QliAve` when averaging is on, else `m_Qli` — never a
combination, as captured by the flag-only selection function
`Steinhardt.getOrderSpec`. -/
theorem c5_getOrder_selection (st : Steinhardt) :
    (Steinhardt.getOrder st).1
        = Steinhardt.getOrderSpec st.m_Wl st.m_average st.m_Wli st.m_QliAve st.m_Qli ∧
    ((Steinhardt.getOrder st).1 = st.m_Wli ∨ (Steinhardt.getOrder st).1 = st.m_QliAve
        ∨ (Steinhardt.getOrder st).1 = st.m_Qli) ∧
    (st.m_Wl = true → (Steinhardt.getOrder st).1 = st.m_Wli) ∧
    (st.m_Wl = false → st.m_average = true → (Steinhardt.getOrder st).1 = st.m_QliAve) ∧
    (st.m_Wl = false → st.m_average = false → (Steinhardt.getOrder st).1 = st.m_Qli) := by
  refine ⟨rfl, ?_, ?_, ?_, ?_⟩
  · unfold Steinhardt.getOrder
    split_ifs <;> tauto
  · intro h
    simp [Steinhardt.getOrder, h]
  · intro h1 h2
    simp [Steinhardt.getOrder, h1, h2]
  · intro h1 h2
    simp [Steinhardt.getOrder, h1, h2]

/-- Claim C5 witness: at the concrete third-order-mode state, `getOrder`
returns the stored `m_Wli` array. -/
theorem c5_getOrder_selection_witness :
    (Steinhardt.getOrder steinFlagState).1 = steinFlagState.m_Wli :=
  (c5_getOrder_selection steinFlagState).2.2.1 rfl

/-- Claim C6: calling an output accessor twice with no intervening
accumulation returns bit-identical arrays: the second call performs no
reduction (the state is unchanged bit for bit) and returns the same
contents as the first call, for both `getPCF` and `getBinCounts`. -/
theorem c6_idempotent_read (n_r f sd : ℕ) (jf : ℕ → ℚ) (s : PMFT) :
    PMFT.getPCF n_r f sd jf (PMFT.getPCF n_r f sd jf s).2
        = ((PMFT.getPCF n_r f sd jf s).1, (PMFT.getPCF n_r f sd jf s).2) ∧
    PMFT.getBinCounts n_r f sd jf (PMFT.getBinCounts n_r f sd jf s).2
        = ((PMFT.getBinCounts n_r f sd jf s).1, (PMFT.getBinCounts n_r f sd jf s).2) := by
  constructor
  · rw [getPCF_clean n_r f sd jf _ rfl]
    rfl
  · rw [getBinCounts_clean n_r f sd jf _ rfl]
    rfl

/-- Claim C8: every `accumulateGeneral` call increments the frame counter
by exactly one, sets the needs-reduction flag, and records the box, the
point count and the query-point count of the supplied neighbor query. -/
theorem c8_accumulate_effects (vol : ℚ) (np nq : ℕ) (incs : List (ℕ × ℕ)) (s : PMFT) :
    (PMFT.accumulateGeneral vol np nq incs s).m_frame_counter = s.m_frame_counter + 1 ∧
    (PMFT.accumulateGeneral vol np nq incs s).m_reduce = true ∧
    (PMFT.accumulateGeneral vol np nq incs s).m_box_volume = vol ∧
    (PMFT.accumulateGeneral vol np nq incs s).m_n_points = np ∧
    (PMFT.accumulateGeneral vol np nq incs s).m_n_query_points = nq :=
  ⟨rfl, rfl, rfl, rfl, rfl⟩

/-- Claim C9: `reset` changes only the per-worker buffers (zeroed in
place, shape preserved), the frame counter (zeroed) and the
needs-reduction flag (set); the box, `m_r_max`, the recorded point and
query-point counts, the output arrays and the grid shape are untouched. -/
theorem c9_reset_frame_effect (s : PMFT) :
    PMFT.reset s = { s with
        m_local_bin_counts := s.m_local_bin_counts.map (fun row => row.map (fun _ => 0))
        m_frame_counter := 0
        m_reduce := true } ∧
    (PMFT.reset s).m_box_volume = s.m_box_volume ∧
    (PMFT.reset s).m_r_max = s.m_r_max ∧
    (PMFT.reset s).m_n_points = s.m_n_points ∧
    (PMFT.reset s).m_n_query_points = s.m_n_query_points ∧
    (PMFT.reset s).m_pcf_array = s.m_pcf_array ∧
    (PMFT.reset s).m_bin_counts = s.m_bin_counts ∧
    (PMFT.reset s).m_frame_counter = 0 ∧
    (PMFT.reset s).m_reduce = true ∧
    (PMFT.reset s).m_local_bin_counts.length = s.m_local_bin_counts.length ∧
    ∀ w : ℕ,
      ((PMFT.reset s).m_local_bin_counts.getD w []).length
          = (s.m_local_bin_counts.getD w []).length ∧
      ∀ k : ℕ, ((PMFT.reset s).m_local_bin_counts.getD w []).getD k 0 = 0 := by
  refine ⟨rfl, rfl, rfl, rfl, rfl, rfl, rfl, rfl, rfl, by simp [PMFT.reset], ?_⟩
  intro w
  have hrow : (PMFT.reset s).m_local_bin_counts.getD w []
      = (s.m_local_bin_counts.getD w []).map (fun _ => 0) := by
    show (s.m_local_bin_counts.map fun row => row.map fun _ => 0).getD w [] = _
    exact getD_map_nil _ _ _ rfl
  constructor
  · rw [hrow]
    simp
  · intro k
    rw [hrow]
    exact getD_map_zero _ k

/-- Helper: the per-worker column sum over freshly reset buffers is zero. -/
theorem colSum_reset_zero (s : PMFT) (k : ℕ) :
    PMFT.workerColSum (PMFT.reset s).m_local_bin_counts k = 0 := by
  unfold PMFT.workerColSum PMFT.reset
  apply List.sum_eq_zero
  intro x hx
  simp only [List.map_map, List.mem_map, Function.comp] at hx
  obtain ⟨row, _, hrow⟩ := hx
  rw [← hrow]
  exact getD_map_zero row k

/-- Helper: when the normalization divisors vanish, every entry of the
PCF array written by `reduce3D` is the non-finite marker `none`. -/
theorem reduce3D_pcf_divzero (n_r f sd : ℕ) (jf : ℕ → ℚ) (s : PMFT)
    (hdz : PMFT.reduce3DDivZero s = true) :
    (PMFT.reduce3D n_r f sd jf s).m_pcf_array = List.replicate (n_r * f * sd) none := by
  simp only [PMFT.reduce3D]
  simp [hdz, List.map_const']

/-- Helper: on a dirty state with vanishing divisors, `getPCF` runs the
reduction and returns an array of non-finite markers. -/
theorem getPCF_divzero (n_r f sd : ℕ) (jf : ℕ → ℚ) (s : PMFT)
    (hdirty : s.m_reduce = true) (hdz : PMFT.reduce3DDivZero s = true) :
    (PMFT.getPCF n_r f sd jf s).1 = List.replicate (n_r * f * sd) none := by
  unfold PMFT.getPCF
  rw [if_pos hdirty]
  show (PMFT.reduce3D n_r f sd jf s).m_pcf_array = _
  exact reduce3D_pcf_divzero n_r f sd jf s hdz

/-- Helper: a reset state is dirty and its divisor condition holds. -/
theorem reset_divzero (t : PMFT) :
    (PMFT.reset t).m_reduce = true ∧ (PMFT.reset t).m_frame_counter = 0 ∧
    PMFT.reduce3DDivZero (PMFT.reset t) = true :=
  ⟨rfl, rfl, by simp [PMFT.reduce3DDivZero, PMFT.reset]⟩

/-- Claim C1 (amended): every accumulation on the histogram engine sets
the needs-reduction flag, and `getPCF`/`getBinCounts` check the flag,
run the reduction exactly when it is set, and leave it clear before
returning, so a PMFT output array is never returned with a pending
accumulation unfolded; the Steinhardt accessors `getOrder`/`getQl`, by
contrast, perform no flag check and no reduction — they return the
stored array selected by the flags and leave the engine state unchanged
(staleness there is a matter for `compute`, which reduces eagerly). -/
theorem c1_dirty_flag_protocol_amended :
    (∀ (vol : ℚ) (np nq : ℕ) (incs : List (ℕ × ℕ)) (s : PMFT),
        (PMFT.accumulateGeneral vol np nq incs s).m_reduce = true) ∧
    (∀ (n_r f sd : ℕ) (jf : ℕ → ℚ) (s : PMFT),
        (s.m_reduce = true →
            PMFT.getPCF n_r f sd jf s
              = ((PMFT.reduce3D n_r f sd jf s).m_pcf_array,
                  { PMFT.reduce3D n_r f sd jf s with m_reduce := false }) ∧
            PMFT.getBinCounts n_r f sd jf s
              = ((PMFT.reduce3D n_r f sd jf s).m_bin_counts,
                  { PMFT.reduce3D n_r f sd jf s with m_reduce := false })) ∧
        (s.m_reduce = false →
            PMFT.getPCF n_r f sd jf s = (s.m_pcf_array, s) ∧
            PMFT.getBinCounts n_r f sd jf s = (s.m_bin_counts, s)) ∧
        (PMFT.getPCF n_r f sd jf s).2.m_reduce = false ∧
        (PMFT.getBinCounts n_r f sd jf s).2.m_reduce = false) ∧
    (∀ st : Steinhardt,
        (Steinhardt.getOrder st).2 = st ∧ (Steinhardt.getQl st).2 = st) := by
  refine ⟨fun vol np nq incs s => rfl,
    fun n_r f sd jf s =>
      ⟨fun h => ⟨?_, ?_⟩,
       fun h => ⟨getPCF_clean n_r f sd jf s h, getBinCounts_clean n_r f sd jf s h⟩,
       rfl, rfl⟩,
    fun st => ⟨rfl, rfl⟩⟩
  · unfold PMFT.getPCF
    rw [if_pos h]
  · unfold PMFT.getBinCounts
    rw [if_pos h]

/-- Claim C1 witness: at the dirty concrete state `pmftWitState` the
`getPCF` accessor runs the reduction and clears the flag. -/
theorem c1_dirty_flag_protocol_amended_witness :
    PMFT.getPCF 1 1 2 (fun _ => 1) pmftWitState
      = ((PMFT.reduce3D 1 1 2 (fun _ => 1) pmftWitState).m_pcf_array,
          { PMFT.reduce3D 1 1 2 (fun _ => 1) pmftWitState with m_reduce := false }) :=
  ((c1_dirty_flag_protocol_amended.2.1 1 1 2 (fun _ => 1) pmftWitState).1 rfl).1

/-- Claim C1, counterexample: at the concrete state `steinPendingState` a
reduction is pending — running `Steinhardt.reduce` would fold the worker
buffer's partial value into the authoritative `m_Qlm` and change the
state — yet `getOrder` and `getQl` return an output array while leaving
the state bit-identical: they check no flag, invoke no reduction and
clear nothing, contradicting the claim that every derived-output
accessor (including `getOrder` and `getQl`) does so. -/
theorem c1_steinhardt_accessor_skips_reduction :
    (Steinhardt.getOrder steinPendingState).2 = steinPendingState ∧
    (Steinhardt.getQl steinPendingState).2 = steinPendingState ∧
    Steinhardt.reduce steinPendingState ≠ steinPendingState ∧
    (Steinhardt.getOrder steinPendingState).1 = steinPendingState.m_Qli := by
  refine ⟨rfl, rfl, ?_, rfl⟩
  intro hEq
  have h := congrArg Steinhardt.m_Qlm hEq
  simp only [Steinhardt.reduce, steinPendingState, List.range_succ] at h
  simp only [List.replicate_succ, List.replicate_zero] at h
  simp [Prod.ext_iff] at h

/-- Claim C2: after reduction with nonzero divisors, every in-range bin
`k` of the normalized output satisfies `pcf[k] = bin_count[k] *
jacobianFactor(k) * (box_volume / n_query_points) / (frame_count *
n_points)`, with `bin_count[k]` the reduced authoritative count. -/
theorem c2_pcf_normalization (s : PMFT) (n_r f sd : ℕ) (jf : ℕ → ℚ) (k : ℕ)
    (hk : k < n_r * f * sd)
    (hfc : s.m_frame_counter ≠ 0) (hnp : s.m_n_points ≠ 0)
    (hnq : s.m_n_query_points ≠ 0) :
    (PMFT.reduce3D n_r f sd jf s).m_pcf_array.getD k none
      = some ((((PMFT.reduce3D n_r f sd jf s).m_bin_counts.getD k 0 : ℕ) : ℚ)
          * jf k * (s.m_box_volume / (s.m_n_query_points : ℚ))
          / ((s.m_frame_counter : ℚ) * (s.m_n_points : ℚ))) := by
  have hdz : PMFT.reduce3DDivZero s = false := by
    simp [PMFT.reduce3DDivZero, Nat.mul_ne_zero hfc hnp, hnq]
  simp only [PMFT.reduce3D]
  rw [getD_map_range _ _ _ _ hk, getD_map_range _ _ _ _ hk]
  rw [hdz]
  simp only [Bool.false_eq_true, if_false]
  congr 1
  ring

/-- Claim C2 witness: the normalization identity evaluated at the
concrete accumulated state `pmftWitState` on its 1x1x2 grid with a unit
Jacobian. -/
theorem c2_pcf_normalization_witness :
    (PMFT.reduce3D 1 1 2 (fun _ => 1) pmftWitState).m_pcf_array.getD 0 none
      = some ((((PMFT.reduce3D 1 1 2 (fun _ => 1) pmftWitState).m_bin_counts.getD 0 0 : ℕ) : ℚ)
          * (fun _ => (1 : ℚ)) 0
          * (pmftWitState.m_box_volume / (pmftWitState.m_n_query_points : ℚ))
          / ((pmftWitState.m_frame_counter : ℚ) * (pmftWitState.m_n_points : ℚ))) :=
  c2_pcf_normalization pmftWitState 1 1 2 (fun _ => 1) 0 (by decide)
    (by decide) (by decide) (by decide)

/-- Claim C7 (amended): for every engine state, `reset` followed by a
read of the outputs yields an all-zero bin-count array and a zero frame
counter, but the PCF entries are not zero: the normalization divides by
the zeroed frame counter, so every PCF entry is the non-finite
division-by-zero marker — whether the PCF is read directly after the
reset or after the bin-count read has already run the reduction. -/
theorem c7_reset_read_amended (n_r f sd : ℕ) (jf : ℕ → ℚ) (s : PMFT) :
    (∀ c ∈ (PMFT.getBinCounts n_r f sd jf (PMFT.reset s)).1, c = 0) ∧
    (PMFT.getBinCounts n_r f sd jf (PMFT.reset s)).2.m_frame_counter = 0 ∧
    (PMFT.getPCF n_r f sd jf (PMFT.reset s)).1 = List.replicate (n_r * f * sd) none ∧
    (PMFT.getPCF n_r f sd jf (PMFT.getBinCounts n_r f sd jf (PMFT.reset s)).2).1
      = List.replicate (n_r * f * sd) none := by
  refine ⟨?_, rfl, ?_, ?_⟩
  · intro c hc
    have hshow : (PMFT.getBinCounts n_r f sd jf (PMFT.reset s)).1
        = (List.range (n_r * f * sd)).map
            (fun i => PMFT.workerColSum (PMFT.reset s).m_local_bin_counts i) := by
      unfold PMFT.getBinCounts
      rw [if_pos (reset_divzero s).1]
      rfl
    rw [hshow] at hc
    simp only [List.mem_map] at hc
    obtain ⟨i, _, hi⟩ := hc
    rw [← hi]
    exact colSum_reset_zero s i
  · exact getPCF_divzero n_r f sd jf _ (reset_divzero s).1 (reset_divzero s).2.2
  · have hflag : (PMFT.getBinCounts n_r f sd jf (PMFT.reset s)).2.m_reduce = false := rfl
    rw [getPCF_clean n_r f sd jf _ hflag]
    show (PMFT.reduce3D n_r f sd jf (PMFT.reset s)).m_pcf_array
        = List.replicate (n_r * f * sd) none
    exact reduce3D_pcf_divzero n_r f sd jf _ (reset_divzero s).2.2

/-- Claim C7, counterexample: at the concrete state obtained by
accumulating one frame into a fresh engine and then calling `reset`,
reading the PCF yields `[none, none]`: the normalization divides by the
zeroed frame counter, so both entries are the non-finite
division-by-zero value, not the zeros the claim requires. -/
theorem c7_reset_then_getPCF_not_zero :
    (PMFT.getPCF 1 1 2 (fun _ => 1) (PMFT.reset pmftWitState)).1 = [none, none] ∧
    ¬ ∀ x ∈ (PMFT.getPCF 1 1 2 (fun _ => 1) (PMFT.reset pmftWitState)).1, x = some 0 := by
  have h : (PMFT.getPCF 1 1 2 (fun _ => 1) (PMFT.reset pmftWitState)).1 = [none, none] := by
    rw [getPCF_divzero 1 1 2 (fun _ => 1) (PMFT.reset pmftWitState) rfl
      (reset_divzero pmftWitState).2.2]
    rfl
  refine ⟨h, fun hall => ?_⟩
  have hn := hall none (by rw [h]; simp)
  simp at hn

/-- Claim C10: the normalization of `reduce3D` divides by
`frame_counter * n_points` and by `n_query_points` with no guard, so in
every state where `getPCF` is invoked with the dirty flag set and a zero
frame counter (or a zero point or query-point count) the
division-by-zero branch is taken: the reduction runs and fills the PCF
with non-finite values; and every state reached by `reset()` is such a
state (dirty, zero frame counter). -/
theorem c10_divide_by_zero_reachable (n_r f sd : ℕ) (jf : ℕ → ℚ) (s : PMFT)
    (hdirty : s.m_reduce = true)
    (hz : s.m_frame_counter = 0 ∨ s.m_n_points = 0 ∨ s.m_n_query_points = 0) :
    PMFT.reduce3DDivZero s = true ∧
    (PMFT.getPCF n_r f sd jf s).2
        = { PMFT.reduce3D n_r f sd jf s with m_reduce := false } ∧
    (PMFT.getPCF n_r f sd jf s).1 = List.replicate (n_r * f * sd) none ∧
    ∀ t : PMFT, (PMFT.reset t).m_reduce = true ∧ (PMFT.reset t).m_frame_counter = 0 := by
  have hdz : PMFT.reduce3DDivZero s = true := by
    rcases hz with h | h | h <;> simp [PMFT.reduce3DDivZero, h]
  refine ⟨hdz, ?_, getPCF_divzero n_r f sd jf s hdirty hdz, fun t => ⟨rfl, rfl⟩⟩
  unfold PMFT.getPCF
  rw [if_pos hdirty]

/-- Claim C10 witness: reading the PCF immediately after `reset` on the
concrete accumulated state takes the division-by-zero branch and returns
non-finite markers in both bins. -/
theorem c10_divide_by_zero_reachable_witness :
    (PMFT.getPCF 1 1 2 (fun _ => 1) (PMFT.reset pmftWitState)).1
      = List.replicate (1 * 1 * 2) none :=
  (c10_divide_by_zero_reachable 1 1 2 (fun _ => 1) (PMFT.reset pmftWitState) rfl
    (Or.inl rfl)).2.2.1

/-- Helper: setting an in-range entry of a row changes only that entry,
as seen through `getD`. -/
theorem getD_set_row (row : List ℕ) (b k a : ℕ) (hb : b < row.length) :
    (row.set b a).getD k 0 = if b = k then a else row.getD k 0 := by
  rw [List.getD_eq_getElem?_getD, List.getD_eq_getElem?_getD, List.getElem?_set]
  split_ifs with h
  · rfl
  · rfl

/-- Helper: replacing an in-range row exchanges that row's contribution
to a column sum. -/
theorem colSum_set (locals : List (List ℕ)) (w : ℕ) (r : List ℕ) (k : ℕ)
    (hw : w < locals.length) :
    PMFT.workerColSum (locals.set w r) k + (locals.getD w []).getD k 0
      = PMFT.workerColSum locals k + r.getD k 0 := by
  induction locals generalizing w with
  | nil => simp at hw
  | cons hd tl ih =>
    cases w with
    | zero =>
      simp [PMFT.workerColSum]
      omega
    | succ w' =>
      have hw' : w' < tl.length := by simpa using hw
      have hih := ih w' hw'
      simp [PMFT.workerColSum] at hih ⊢
      omega

/-- Helper: one in-range (worker, bin) increment adds exactly one to the
column sum of its bin and leaves every other column sum unchanged. -/
theorem colSum_bumpBin (locals : List (List ℕ)) (w b k : ℕ)
    (hw : w < locals.length) (hb : b < (locals.getD w []).length) :
    PMFT.workerColSum (PMFT.bumpBin locals w b) k
      = PMFT.workerColSum locals k + (if b = k then 1 else 0) := by
  have h1 := colSum_set locals w (PMFT.setAdd1 (locals.getD w []) b) k hw
  have h2 : (PMFT.setAdd1 (locals.getD w []) b).getD k 0
      = (locals.getD w []).getD k 0 + (if b = k then 1 else 0) := by
    unfold PMFT.setAdd1
    rw [getD_set_row _ _ _ _ hb]
    split_ifs with h
    · rw [h]
    · omega
  unfold PMFT.bumpBin
  rw [h2] at h1
  split_ifs at h1 ⊢ <;> omega

/-- Helper: distributing any in-range increment stream over per-worker
buffers and summing a column afterwards counts exactly the increments
that targeted that bin — the exact serial accumulation. -/
theorem colSum_applyIncs (W nbins k : ℕ) :
    ∀ (incs : List (ℕ × ℕ)) (locals : List (List ℕ)),
      locals.length = W → (∀ row ∈ locals, row.length = nbins) →
      (∀ p ∈ incs, p.1 < W ∧ p.2 < nbins) →
      PMFT.workerColSum (PMFT.applyIncs incs locals) k
        = PMFT.workerColSum locals k
          + (incs.filter (fun p => p.2 == k)).length := by
  intro incs
  induction incs with
  | nil =>
    intro locals _ _ _
    simp [PMFT.applyIncs]
  | cons p rest ih =>
    intro locals hlen hshape hin
    have hp := hin p (by simp)
    have hw : p.1 < locals.length := by rw [hlen]; exact hp.1
    have hrowmem : locals.getD p.1 [] ∈ locals := by
      rw [List.getD_eq_getElem?_getD, List.getElem?_eq_getElem hw]
      exact List.getElem_mem hw
    have hb : p.2 < (locals.getD p.1 []).length := by
      rw [hshape _ hrowmem]
      exact hp.2
    have hstep : PMFT.applyIncs (p :: rest) locals
        = PMFT.applyIncs rest (PMFT.bumpBin locals p.1 p.2) := rfl
    have hlen' : (PMFT.bumpBin locals p.1 p.2).length = W := by
      simp [PMFT.bumpBin, hlen]
    have hshape' : ∀ row ∈ PMFT.bumpBin locals p.1 p.2, row.length = nbins := by
      intro row hrow
      rcases List.mem_or_eq_of_mem_set hrow with h | h
      · exact hshape row h
      · rw [h]
        show (PMFT.setAdd1 (locals.getD p.1 []) p.2).length = nbins
        unfold PMFT.setAdd1
        rw [List.length_set]
        exact hshape _ hrowmem
    rw [hstep, ih (PMFT.bumpBin locals p.1 p.2) hlen' hshape'
        (fun q hq => hin q (List.mem_cons_of_mem _ hq)),
      colSum_bumpBin locals p.1 p.2 k hw hb, List.filter_cons]
    by_cases hbk : p.2 = k
    · simp only [hbk, beq_self_eq_true, if_pos, List.length_cons]
      omega
    · simp only [beq_eq_false_iff_ne, ne_eq, hbk, not_false_eq_true, if_neg, if_false]
      simp [hbk]

/-- Helper: every entry of a replicated-zero row reads zero. -/
theorem getD_replicate_zero (n k : ℕ) : (List.replicate n (0 : ℕ)).getD k 0 = 0 := by
  rw [List.getD_eq_getElem?_getD, List.getElem?_replicate]
  split_ifs <;> rfl

/-- Claim C3: after `reduce()` the authoritative bin-count entry at every
in-range key equals the sum of the per-worker partial values at that
key; and for worker buffers filled by distributing any in-range
increment stream over freshly zeroed buffers, that sum equals the exact
serial count of increments targeting the key — exactly, since counts
are natural numbers. -/
theorem c3_reduced_counts_equal_serial (s : PMFT) (n_r f sd : ℕ) (jf : ℕ → ℚ)
    (k : ℕ) (hk : k < n_r * f * sd) :
    (PMFT.reduce3D n_r f sd jf s).m_bin_counts.getD k 0
      = PMFT.workerColSum s.m_local_bin_counts k ∧
    ∀ (W nbins : ℕ) (incs : List (ℕ × ℕ)),
      (∀ p ∈ incs, p.1 < W ∧ p.2 < nbins) →
      PMFT.workerColSum
          (PMFT.applyIncs incs (List.replicate W (List.replicate nbins 0))) k
        = (incs.filter (fun p => p.2 == k)).length := by
  constructor
  · simp only [PMFT.reduce3D]
    exact getD_map_range _ _ _ _ hk
  · intro W nbins incs hin
    rw [colSum_applyIncs W nbins k incs (List.replicate W (List.replicate nbins 0))
      (by simp) (fun row hrow => by rw [List.eq_of_mem_replicate hrow]; simp) hin]
    have hz : PMFT.workerColSum (List.replicate W (List.replicate nbins 0)) k = 0 := by
      unfold PMFT.workerColSum
      rw [List.map_replicate, getD_replicate_zero]
      simp
    rw [hz]
    omega

/-- Claim C3 witness: at the concrete accumulated state, bin 0 of the
reduced counts equals the worker column sum, and distributing the two
concrete increments over one zeroed worker buffer gives the serial count
for bin 0. -/
theorem c3_reduced_counts_equal_serial_witness :
    ((PMFT.reduce3D 1 1 2 (fun _ => 1) pmftWitState).m_bin_counts.getD 0 0
      = PMFT.workerColSum pmftWitState.m_local_bin_counts 0) ∧
    PMFT.workerColSum
        (PMFT.applyIncs [(0, 0), (0, 1)] (List.replicate 1 (List.replicate 2 0))) 0
      = ([(0, 0), (0, 1)].filter (fun p => p.2 == 0)).length := by
  have h := c3_reduced_counts_equal_serial pmftWitState 1 1 2 (fun _ => 1) 0 (by decide)
  exact ⟨h.1, h.2 1 2 [(0, 0), (0, 1)] (by decide)⟩
